import Mathlib

/-!
Verification of the k-space reconstruction notebook
(`teaching_MRI_reconstruction`, file `notebook.ipynb`).

The notebook's numeric core consists of:
* `calculate_sinusoid` — the sinusoid synthesizer (cell 4);
* `np.fft.fftshift` applied along both axes (cells 14, 32, 39);
* the reconstruction line `img = np.fft.fft2(kspace_shifted / np.sqrt(Nx*Ny), norm='ortho')`
  (cells 16, 32, 39);
* the rectangular frequency mask built by slice assignment
  `frequency_mask[y_start:y_stop+1, x_start:x_stop+1] = True` (cell 24);
* the single-coefficient interference injection
  `kspace_mod[int(Cy)+OFFSETy, int(Cx)+OFFSETx] = amplification_factor * (1+1j)` (cell 35).

Arrays of shape (M, N) are embedded as functions `Fin M → Fin N → ℂ`
(row index first, exactly as numpy's axis 0 / axis 1).  Real scalars are `ℝ`,
complex entries are `ℂ`, and Python / numpy error behaviour is made explicit
with `Except` / `Option`.
-/

open ComplexConjugate

/-! ### Python error kinds that the notebook's code can actually raise -/

/-- The exceptions reachable in the notebook's numeric code:
`ValueError` from the explicit guard in `calculate_sinusoid`,
`ZeroDivisionError` from Python float division by a zero period, and
`IndexError` from an out-of-bounds numpy element access. -/
inductive PyErr
  | valueError
  | zeroDivisionError
  | indexError
deriving DecidableEq

/-! ### SinusoidSynthesizer: `calculate_sinusoid` (cell 4)

```python
def calculate_sinusoid( dimension, wx, wy, fx, fy, phix=0.0, phiy=0.0 ):
    if len(dimension) != 2:
        raise ValueError('dimension must be a tuple of length 2')
    sin_xy = np.zeros(dimension)
    for y in range(sin_xy.shape[0]):
        for x in range(sin_xy.shape[1]):
            sin_xy[x,y] = np.pi * np.sin(2*np.pi*fx*x/wx+phix+2*np.pi*fy*y/wy+phiy)
    return sin_xy
```

The loop writes `sin_xy[x,y]` with `y < dimension[0]` and `x < dimension[1]`,
but the array has `dimension[0]` rows and `dimension[1]` columns: the write is
out of bounds (an `IndexError`) as soon as `x ≥ dimension[0]` or
`y ≥ dimension[1]`.  Such an `x` (resp. `y`) is reached exactly when both loop
ranges are nonempty and `dimension[0] ≠ dimension[1]`, i.e. for every nonempty
non-square shape.  When no write is out of bounds (square shapes, or an empty
axis) the returned array holds, at position `[x, y]`, the value
`π·sin(2π·fx·x/wx + phix + 2π·fy·y/wy + phiy)`.

Zero periods: `np.pi` is a plain Python `float`, so with the Python-scalar
arguments the notebook passes, `2*np.pi*fx*x` is a Python `float` and
`float / 0.0` raises `ZeroDivisionError`.  The value expression is evaluated
before each store, so with `wx = 0` or `wy = 0` the error fires at the very
first iteration `x = y = 0` — before any element is stored and in particular
before any out-of-bounds write could raise `IndexError` — whenever both loop
ranges are nonempty.  With an empty axis the loops never run, no division is
executed, and the zero-filled array is returned. -/
noncomputable def sinVal (wx wy fx fy phix phiy : ℝ) (x y : ℕ) : ℝ :=
  Real.pi * Real.sin (2 * Real.pi * fx * x / wx + phix + 2 * Real.pi * fy * y / wy + phiy)

/-- Embedding of `calculate_sinusoid`.  The result array (shape
`(dimension[0], dimension[1])`) is represented as a total function on `ℕ × ℕ`;
entries outside the written region are the `np.zeros` fill `0`. -/
noncomputable def calculate_sinusoid (dimension : List ℕ) (wx wy fx fy phix phiy : ℝ) :
    Except PyErr (ℕ → ℕ → ℝ) :=
  match dimension with
  | [d0, d1] =>
      if 0 < d0 ∧ 0 < d1 ∧ (wx = 0 ∨ wy = 0) then
        Except.error PyErr.zeroDivisionError
      else if 0 < d0 ∧ 0 < d1 ∧ d0 ≠ d1 then
        Except.error PyErr.indexError
      else
        Except.ok fun x y => if x < d1 ∧ y < d0 then sinVal wx wy fx fy phix phiy x y else 0
  | _ => Except.error PyErr.valueError

/-! ### SpectrumShifter: `np.fft.fftshift` / `np.fft.ifftshift`

numpy's `fftshift` rolls every axis by `n // 2` and `ifftshift` rolls by
`-(n // 2)`; `np.roll(a, s)[i] = a[(i - s) % n]`. -/

/-- Index map of rolling an axis of length `M` by `M / 2` (the `fftshift`
direction): output position `i` reads input position `(i - M/2) % M`,
written as `(i + (M - M/2)) % M` in `ℕ`. -/
def fwdIdx (M : ℕ) (i : Fin M) : Fin M :=
  ⟨(i.val + (M - M / 2)) % M, Nat.mod_lt _ i.pos⟩

/-- Index map of rolling an axis of length `M` by `-(M / 2)` (the `ifftshift`
direction): output position `i` reads input position `(i + M/2) % M`. -/
def invIdx (M : ℕ) (i : Fin M) : Fin M :=
  ⟨(i.val + M / 2) % M, Nat.mod_lt _ i.pos⟩

/-- `np.fft.fftshift` on a 2-D complex array: roll both axes by half their
length (integer division).  A pure permutation of the entries. -/
def fftshift2 {M N : ℕ} (A : Fin M → Fin N → ℂ) : Fin M → Fin N → ℂ :=
  fun i j => A (fwdIdx M i) (fwdIdx N j)

/-- `np.fft.ifftshift` on a 2-D complex array: roll both axes by minus half
their length. -/
def ifftshift2 {M N : ℕ} (A : Fin M → Fin N → ℂ) : Fin M → Fin N → ℂ :=
  fun i j => A (invIdx M i) (invIdx N j)

/-! ### FourierTransformPair (cell 16)

`np.fft.fft2(a)[u,v] = Σ_{j,k} a[j,k]·exp(-2πi·(u·j/M + v·k/N))`, and with
`norm='ortho'` the result is divided by `√(M·N)`; `ifft2` uses `+2πi` and the
same `ortho` factor.  The sign is kept as an integer parameter `ε` (`-1` for
`fft2`, `+1` for `ifft2`). -/

/-- The unnormalized separable 1-D DFT kernel sum with sign `ε`:
`Σ_j f j · exp(ε·2πi·u·j/M)`. -/
noncomputable def dft1 (ε : ℤ) {M : ℕ} (f : Fin M → ℂ) (u : Fin M) : ℂ :=
  ∑ j, f j * Complex.exp ((ε : ℂ) * (2 * Real.pi * Complex.I) * ((u.val * j.val : ℕ) : ℂ) / (M : ℂ))

/-- The unnormalized 2-D DFT with sign `ε`, exactly numpy's double sum. -/
noncomputable def rawDFT2 (ε : ℤ) {M N : ℕ} (A : Fin M → Fin N → ℂ) (u : Fin M) (v : Fin N) : ℂ :=
  ∑ j, ∑ k, A j k *
    Complex.exp ((ε : ℂ) * (2 * Real.pi * Complex.I) *
      (((u.val * j.val : ℕ) : ℂ) / (M : ℂ) + ((v.val * k.val : ℕ) : ℂ) / (N : ℂ)))

/-- `np.fft.fft2(·, norm='ortho')`. -/
noncomputable def fft2ortho {M N : ℕ} (A : Fin M → Fin N → ℂ) : Fin M → Fin N → ℂ :=
  fun u v => rawDFT2 (-1) A u v / (Real.sqrt ((M : ℝ) * (N : ℝ)) : ℂ)

/-- `np.fft.ifft2(·, norm='ortho')`. -/
noncomputable def ifft2ortho {M N : ℕ} (A : Fin M → Fin N → ℂ) : Fin M → Fin N → ℂ :=
  fun u v => rawDFT2 1 A u v / (Real.sqrt ((M : ℝ) * (N : ℝ)) : ℂ)

/-- The notebook's reconstruction transform, cell 16:
`np.fft.fft2( X / np.sqrt(Nx*Ny), norm='ortho' )` — the input is divided by
`√(Nx·Ny)` once more on top of the `ortho` normalization. -/
noncomputable def forwardTransform {M N : ℕ} (A : Fin M → Fin N → ℂ) : Fin M → Fin N → ℂ :=
  fft2ortho fun j k => A j k / (Real.sqrt ((M : ℝ) * (N : ℝ)) : ℂ)

/-- Modelled from the spec: the notebook implements no inverse transform, so
this follows section 4.3 of the spec ("each transform divides the result by
√(Nx·Ny) in addition to any per-call normalization already built into the
chosen transform primitive"): `np.fft.ifft2( X / np.sqrt(Nx*Ny), norm='ortho' )`. -/
noncomputable def inverseTransform {M N : ℕ} (A : Fin M → Fin N → ℂ) : Fin M → Fin N → ℂ :=
  ifft2ortho fun j k => A j k / (Real.sqrt ((M : ℝ) * (N : ℝ)) : ℂ)

/-- Total signal energy: the sum of squared magnitudes of the entries. -/
noncomputable def energy {M N : ℕ} (A : Fin M → Fin N → ℂ) : ℝ :=
  ∑ j, ∑ k, Complex.abs (A j k) ^ 2

/-! ### FrequencyMask (cell 24)

```python
x_start = int(Cx) + OFFSETx - Kx_half_side
x_stop  = int(Cx) + OFFSETx + Kx_half_side
y_start = int(Cy) + OFFSETy - Ky_half_side
y_stop  = int(Cy) + OFFSETy + Ky_half_side
frequency_mask = np.zeros( (Nx,Ny), dtype=bool )
frequency_mask[y_start:y_stop+1,x_start:x_stop+1] = True
```

with `Cx = Nx/2.0`, `Cy = Ny/2.0` (cell 6); `int(·)` truncates toward zero,
which for the nonnegative `Nx/2.0` is `Nx // 2`.  Slice assignment follows
Python slice semantics: it never raises for any integer bounds — a negative
bound is first shifted by the axis length, then the bound is clamped to
`[0, n]`. -/

/-- Python's adjustment of one slice bound `s` on an axis of length `n`
(CPython `PySlice_AdjustIndices`, step 1): negative bounds count from the
end, then the bound is clamped to `[0, n]`. -/
def sliceBound (n : ℕ) (s : ℤ) : ℤ :=
  if s < 0 then max (s + n) 0 else min s n

/-- Membership of index `i` in the Python slice `[s:t]` of an axis of
length `n`. -/
def inSlice (n : ℕ) (s t : ℤ) (i : ℕ) : Prop :=
  sliceBound n s ≤ (i : ℤ) ∧ (i : ℤ) < sliceBound n t

instance (n : ℕ) (s t : ℤ) (i : ℕ) : Decidable (inSlice n s t i) := by
  unfold inSlice; infer_instance

/-- Embedding of cell 24's mask construction.  The mask has shape `(Nx, Ny)`
and is indexed `[y, x]` exactly as in the notebook (whose row slice bounds are
computed from `Cy = Ny/2` even though the row axis has length `Nx`; the
notebook's own data is square, `Nx = Ny`). -/
def buildRectangularMask (Nx Ny : ℕ) (OFFSETx OFFSETy Kx Ky : ℤ) : Fin Nx → Fin Ny → Bool :=
  let x_start : ℤ := (Nx : ℤ) / 2 + OFFSETx - Kx
  let x_stop  : ℤ := (Nx : ℤ) / 2 + OFFSETx + Kx
  let y_start : ℤ := (Ny : ℤ) / 2 + OFFSETy - Ky
  let y_stop  : ℤ := (Ny : ℤ) / 2 + OFFSETy + Ky
  fun y x =>
    decide (inSlice Nx y_start (y_stop + 1) y.val ∧ inSlice Ny x_start (x_stop + 1) x.val)

/-! ### InterferenceInjector (cell 35)

```python
kspace_mod = kspace.copy()
kspace_mod[int(Cy)+OFFSETy,int(Cx)+OFFSETx] = amplification_factor * (1. + 1j*1)
```

numpy scalar indexing accepts any integer `i` with `-n ≤ i < n`; a negative
`i` addresses position `i + n` (wrap-around), and only `i < -n` or `i ≥ n`
raises `IndexError`. -/

/-- numpy's resolution of a single integer index on an axis of length `n`:
`some` of the addressed position, or `none` for `IndexError`. -/
def pyIndex (n : ℕ) (i : ℤ) : Option (Fin n) :=
  if h : 0 ≤ i ∧ i < n then
    some ⟨i.toNat, by omega⟩
  else if h2 : -(n : ℤ) ≤ i ∧ i < 0 then
    some ⟨(i + n).toNat, by omega⟩
  else
    none

/-- Embedding of cell 35: overwrite the single coefficient at row
`int(Cy)+OFFSETy`, column `int(Cx)+OFFSETx` of a copy of the spectrum, where
`Cx = Nx/2.0` and `Cy = Ny/2.0` with `Nx` = number of rows, `Ny` = number of
columns (the notebook computes the row index from `Cy` and the column index
from `Cx`; its own data is square).  `none` models `IndexError`. -/
def injectPoint (Nx Ny : ℕ) (S : Fin Nx → Fin Ny → ℂ) (OFFSETx OFFSETy : ℤ) (v : ℂ) :
    Option (Fin Nx → Fin Ny → ℂ) :=
  match pyIndex Nx ((Ny : ℤ) / 2 + OFFSETy), pyIndex Ny ((Nx : ℤ) / 2 + OFFSETx) with
  | some iy, some ix => some fun y x => if y = iy ∧ x = ix then v else S y x
  | _, _ => none

/-! ## Shift lemmas -/

/-- Rolling by `-(M/2)` after rolling by `M/2` returns to the start, for every
axis length. -/
lemma invIdx_fwdIdx (M : ℕ) (i : Fin M) : invIdx M (fwdIdx M i) = i := by
  apply Fin.ext
  show ((i.val + (M - M / 2)) % M + M / 2) % M = i.val
  rw [Nat.mod_add_mod]
  have h1 : i.val + (M - M / 2) + M / 2 = i.val + M := by
    have := Nat.div_le_self M 2; omega
  rw [h1, Nat.add_mod_right, Nat.mod_eq_of_lt i.isLt]

/-- Rolling twice by `M/2` returns to the start when `M` is even. -/
lemma fwdIdx_fwdIdx (M : ℕ) (hM : Even M) (i : Fin M) : fwdIdx M (fwdIdx M i) = i := by
  obtain ⟨k, hk⟩ := hM
  apply Fin.ext
  show ((i.val + (M - M / 2)) % M + (M - M / 2)) % M = i.val
  rw [Nat.mod_add_mod]
  have h1 : i.val + (M - M / 2) + (M - M / 2) = i.val + M := by omega
  rw [h1, Nat.add_mod_right, Nat.mod_eq_of_lt i.isLt]

/-- C4: for even axis lengths `shift ∘ shift` is the identity (an exact
permutation); `shift ∘ inverseShift` is the identity for all lengths; and for
odd lengths `shift ∘ shift` is in general not the identity, witnessed by a
3×3 array. -/
theorem claim_C4_shift :
    (∀ (M N : ℕ) (A : Fin M → Fin N → ℂ), Even M → Even N → fftshift2 (fftshift2 A) = A) ∧
    (∀ (M N : ℕ) (A : Fin M → Fin N → ℂ), fftshift2 (ifftshift2 A) = A) ∧
    fftshift2 (fftshift2 fun i j : Fin 3 => ((i.val * 3 + j.val : ℕ) : ℂ)) ≠
      fun i j : Fin 3 => ((i.val * 3 + j.val : ℕ) : ℂ) := by
  refine ⟨?_, ?_, ?_⟩
  · intro M N A hM hN
    funext i j
    show A (fwdIdx M (fwdIdx M i)) (fwdIdx N (fwdIdx N j)) = A i j
    rw [fwdIdx_fwdIdx M hM, fwdIdx_fwdIdx N hN]
  · intro M N A
    funext i j
    show A (invIdx M (fwdIdx M i)) (invIdx N (fwdIdx N j)) = A i j
    rw [invIdx_fwdIdx, invIdx_fwdIdx]
  · intro h
    have h00 := congrFun (congrFun h 0) 0
    have hL : fftshift2 (fftshift2 fun i j : Fin 3 => ((i.val * 3 + j.val : ℕ) : ℂ)) 0 0 =
        ((4 : ℕ) : ℂ) := rfl
    rw [hL] at h00
    have hv : ((0 : Fin 3).val * 3 + (0 : Fin 3).val : ℕ) = 0 := rfl
    rw [hv] at h00
    norm_num at h00

/-- Witness for C4 at concrete even (2×2) and odd (3×3) inputs. -/
theorem claim_C4_witness :
    fftshift2 (fftshift2 fun (_ : Fin 2) (_ : Fin 2) => (7 : ℂ)) =
      (fun (_ : Fin 2) (_ : Fin 2) => (7 : ℂ)) ∧
    fftshift2 (ifftshift2 fun (_ : Fin 3) (_ : Fin 3) => (5 : ℂ)) =
      (fun (_ : Fin 3) (_ : Fin 3) => (5 : ℂ)) :=
  ⟨claim_C4_shift.1 2 2 _ (by decide) (by decide), claim_C4_shift.2.1 3 3 _⟩

/-! ## Sinusoid synthesizer claims -/

/-- C10: a `dimension` argument that is not of length 2 makes
`calculate_sinusoid` raise `ValueError` (the guard runs before anything is
allocated or computed). -/
theorem claim_C10_valueError (dimension : List ℕ) (wx wy fx fy phix phiy : ℝ)
    (h : dimension.length ≠ 2) :
    calculate_sinusoid dimension wx wy fx fy phix phiy = Except.error PyErr.valueError := by
  rcases dimension with _ | ⟨a, _ | ⟨b, _ | ⟨c, t⟩⟩⟩
  · rfl
  · rfl
  · simp at h
  · rfl

/-- Witness for C10 at the concrete shape `[3]`. -/
theorem claim_C10_witness :
    ([3] : List ℕ).length ≠ 2 ∧
      calculate_sinusoid [3] 1 1 0 0 0 0 = Except.error PyErr.valueError :=
  ⟨by decide, claim_C10_valueError [3] 1 1 0 0 0 0 (by decide)⟩

/-- C7 (code bug): on the non-square shape (2,3) the transposed write
`sin_xy[x,y]` goes out of bounds and `calculate_sinusoid` raises `IndexError`
instead of returning the promised 2×3 sinusoid array. -/
theorem claim_C7_nonsquare_indexError :
    calculate_sinusoid [2, 3] 1 1 1 1 0 0 = Except.error PyErr.indexError := by
  norm_num [calculate_sinusoid]

/-- C8: calling `calculate_sinusoid` with `periodX = 0` or `periodY = 0` on a
shape with both axes ≥ 1 (the spec's data-model invariant `Nx, Ny ≥ 1`) fails
with `ZeroDivisionError` rather than returning an array: `np.pi` is a Python
`float`, so the Python float division by the zero period raises at the first
loop iteration, before anything is stored or returned. -/
theorem claim_C8_divisionByZero (d0 d1 : ℕ) (wx wy fx fy phix phiy : ℝ)
    (h0 : 0 < d0) (h1 : 0 < d1) (hw : wx = 0 ∨ wy = 0) :
    calculate_sinusoid [d0, d1] wx wy fx fy phix phiy =
      Except.error PyErr.zeroDivisionError := by
  simp only [calculate_sinusoid]
  rw [if_pos ⟨h0, h1, hw⟩]

/-- Witness for C8 at shape (2,2) with `periodX = 0`. -/
theorem claim_C8_witness :
    calculate_sinusoid [2, 2] 0 5 1 1 0 0 = Except.error PyErr.zeroDivisionError :=
  claim_C8_divisionByZero 2 2 0 5 1 1 0 0 (by decide) (by decide) (Or.inl rfl)

/-! ## Frequency-mask claims -/

/-- C5: when the requested rectangle lies inside the array (nonnegative
half-extents, both slice bounds within the axes), the mask is `True` exactly
on the inclusive rectangle `[int(Cy)+OFFSETy−Ky, int(Cy)+OFFSETy+Ky] ×
[int(Cx)+OFFSETx−Kx, int(Cx)+OFFSETx+Kx]`. -/
theorem claim_C5_mask (Nx Ny : ℕ) (OFFSETx OFFSETy Kx Ky : ℤ)
    (hKx : 0 ≤ Kx) (hKy : 0 ≤ Ky)
    (hx0 : 0 ≤ (Nx : ℤ) / 2 + OFFSETx - Kx) (hx1 : (Nx : ℤ) / 2 + OFFSETx + Kx < (Ny : ℤ))
    (hy0 : 0 ≤ (Ny : ℤ) / 2 + OFFSETy - Ky) (hy1 : (Ny : ℤ) / 2 + OFFSETy + Ky < (Nx : ℤ))
    (y : Fin Nx) (x : Fin Ny) :
    buildRectangularMask Nx Ny OFFSETx OFFSETy Kx Ky y x = true ↔
      ((Ny : ℤ) / 2 + OFFSETy - Ky ≤ (y.val : ℤ) ∧
       (y.val : ℤ) ≤ (Ny : ℤ) / 2 + OFFSETy + Ky ∧
       (Nx : ℤ) / 2 + OFFSETx - Kx ≤ (x.val : ℤ) ∧
       (x.val : ℤ) ≤ (Nx : ℤ) / 2 + OFFSETx + Kx) := by
  have hy : (y.val : ℤ) < (Nx : ℤ) := by exact_mod_cast y.isLt
  have hx : (x.val : ℤ) < (Ny : ℤ) := by exact_mod_cast x.isLt
  simp only [buildRectangularMask, inSlice, sliceBound, decide_eq_true_eq]
  split_ifs <;> omega

/-- Witness for C5: an 8×8 mask, centered rectangle of half-extent 2,
entry (4,4) is retained. -/
theorem claim_C5_witness : buildRectangularMask 8 8 0 0 2 2 4 4 = true := by
  have h := claim_C5_mask 8 8 0 0 2 2 (by decide) (by decide) (by decide) (by decide)
    (by decide) (by decide) 4 4
  exact h.mpr (by decide)

/-- C6 counterexample: with half-extent `Ky = 3` exceeding the margin of a
4×4 array, the build does not fail at all — Python reinterprets the row slice
`[-1:6]` as `[3:4]` — and returns the mask that is `True` exactly on
`{row 3} × {column 2}` (wrapped, not even clamped). -/
theorem claim_C6_counterexample :
    buildRectangularMask 4 4 0 0 0 3 = fun y x => decide (y.val = 3 ∧ x.val = 2) := by
  decide

/-- C6 amended: out-of-range bounds never fail; Python slice semantics apply
silently.  Whenever both slice starts are nonnegative the `True` region is
the requested rectangle clamped to the array (overlarge stops are cut off at
the axis length); a negative start instead wraps to count from the end of
the axis (see the counterexample). -/
theorem claim_C6_amended (Nx Ny : ℕ) (OFFSETx OFFSETy Kx Ky : ℤ)
    (hKx : 0 ≤ Kx) (hKy : 0 ≤ Ky)
    (hys : 0 ≤ (Ny : ℤ) / 2 + OFFSETy - Ky) (hxs : 0 ≤ (Nx : ℤ) / 2 + OFFSETx - Kx)
    (y : Fin Nx) (x : Fin Ny) :
    buildRectangularMask Nx Ny OFFSETx OFFSETy Kx Ky y x = true ↔
      ((Ny : ℤ) / 2 + OFFSETy - Ky ≤ (y.val : ℤ) ∧
       (y.val : ℤ) ≤ (Ny : ℤ) / 2 + OFFSETy + Ky ∧
       (Nx : ℤ) / 2 + OFFSETx - Kx ≤ (x.val : ℤ) ∧
       (x.val : ℤ) ≤ (Nx : ℤ) / 2 + OFFSETx + Kx) := by
  have hy : (y.val : ℤ) < (Nx : ℤ) := by exact_mod_cast y.isLt
  have hx : (x.val : ℤ) < (Ny : ℤ) := by exact_mod_cast x.isLt
  simp only [buildRectangularMask, inSlice, sliceBound, decide_eq_true_eq]
  split_ifs <;> omega

/-- Witness for C6 amended: a 4×4 mask whose rectangle sticks out past the
top-right corner (stops = 6 ≥ 4) still succeeds, and the out-of-range part is
silently clamped: entry (3,3) is retained. -/
theorem claim_C6_witness : buildRectangularMask 4 4 2 2 2 2 3 3 = true := by
  have h := claim_C6_amended 4 4 2 2 2 2 (by decide) (by decide) (by decide) (by decide) 3 3
  exact h.mpr (by decide)

/-! ## Interference-injection claims -/

/-- numpy single-integer indexing fails exactly outside `[-n, n)`. -/
lemma pyIndex_eq_none_iff (n : ℕ) (i : ℤ) :
    pyIndex n i = none ↔ (i < -(n : ℤ) ∨ (n : ℤ) ≤ i) := by
  unfold pyIndex
  split_ifs <;> simp <;> omega

/-- numpy wraps a negative in-range index to `i + n`. -/
lemma pyIndex_neg (n : ℕ) (t : ℤ) (h1 : -(n : ℤ) ≤ t) (h2 : t < 0) :
    (pyIndex n t).map Fin.val = some ((t + (n : ℤ)).toNat) := by
  unfold pyIndex
  split_ifs with hA hB
  · omega
  · simp
  · omega

/-- C9 amended: the injection fails (`IndexError`) only when a converted
index falls outside `[-N, N)` on its axis; a converted index in `[-N, -1]`
silently wraps to `index + N` (numpy semantics), and on success exactly the
addressed coefficient of a copy is overwritten. -/
theorem claim_C9_amended (Nx Ny : ℕ) (S : Fin Nx → Fin Ny → ℂ) (OFFSETx OFFSETy : ℤ) (v : ℂ) :
    (injectPoint Nx Ny S OFFSETx OFFSETy v = none ↔
      ((Ny : ℤ) / 2 + OFFSETy < -(Nx : ℤ) ∨ (Nx : ℤ) ≤ (Ny : ℤ) / 2 + OFFSETy ∨
       (Nx : ℤ) / 2 + OFFSETx < -(Ny : ℤ) ∨ (Ny : ℤ) ≤ (Nx : ℤ) / 2 + OFFSETx)) ∧
    (∀ (iy : Fin Nx) (ix : Fin Ny),
      pyIndex Nx ((Ny : ℤ) / 2 + OFFSETy) = some iy →
      pyIndex Ny ((Nx : ℤ) / 2 + OFFSETx) = some ix →
      injectPoint Nx Ny S OFFSETx OFFSETy v =
        some fun y x => if y = iy ∧ x = ix then v else S y x) ∧
    (∀ (n : ℕ) (t : ℤ), -(n : ℤ) ≤ t → t < 0 →
      (pyIndex n t).map Fin.val = some ((t + (n : ℤ)).toNat)) := by
  refine ⟨?_, ?_, pyIndex_neg⟩
  · constructor
    · intro h0
      rcases hy : pyIndex Nx ((Ny : ℤ) / 2 + OFFSETy) with _ | iy
      · have := (pyIndex_eq_none_iff _ _).mp hy
        omega
      · rcases hx : pyIndex Ny ((Nx : ℤ) / 2 + OFFSETx) with _ | ix
        · have := (pyIndex_eq_none_iff _ _).mp hx
          omega
        · rw [injectPoint, hy, hx] at h0
          simp at h0
    · intro hcond
      rw [injectPoint]
      rcases hy : pyIndex Nx ((Ny : ℤ) / 2 + OFFSETy) with _ | iy
      · rfl
      · have hy2 : ¬((Ny : ℤ) / 2 + OFFSETy < -(Nx : ℤ) ∨ (Nx : ℤ) ≤ (Ny : ℤ) / 2 + OFFSETy) := by
          intro hc
          have hn := (pyIndex_eq_none_iff Nx ((Ny : ℤ) / 2 + OFFSETy)).mpr hc
          rw [hn] at hy
          exact Option.noConfusion hy
        rcases hx : pyIndex Ny ((Nx : ℤ) / 2 + OFFSETx) with _ | ix
        · rfl
        · have hx2 : ¬((Nx : ℤ) / 2 + OFFSETx < -(Ny : ℤ) ∨ (Ny : ℤ) ≤ (Nx : ℤ) / 2 + OFFSETx) := by
            intro hc
            have hn := (pyIndex_eq_none_iff Ny ((Nx : ℤ) / 2 + OFFSETx)).mpr hc
            rw [hn] at hx
            exact Option.noConfusion hx
          exact absurd hcond (by omega)
  · intro iy ix hy hx
    unfold injectPoint
    rw [hy, hx]

/-- Witness for C9 amended: on a 4×4 zero spectrum, `OFFSETy = -3` converts
to row index `-1`, which numpy wraps to row 3; the value lands there. -/
theorem claim_C9_witness :
    injectPoint 4 4 (fun _ _ => (0 : ℂ)) 0 (-3) 1 =
      some fun y x => if y = (3 : Fin 4) ∧ x = (2 : Fin 4) then (1 : ℂ) else 0 :=
  (claim_C9_amended 4 4 (fun _ _ => (0 : ℂ)) 0 (-3) 1).2.1 3 2 (by decide) (by decide)

/-- C9 counterexample: the converted row index `-1` lies outside the array
bounds `[0, 4)`, yet the injection succeeds (returns an array) instead of
failing with `OutOfRange`. -/
theorem claim_C9_counterexample :
    (injectPoint 4 4 (fun _ _ => (0 : ℂ)) 0 (-3) 1).isSome = true := by
  decide

/-! ## Discrete Fourier analysis of the implemented transform

The following lemmas establish, for the embedded `np.fft` definitions, the
root-of-unity geometric sum, the inversion theorem and Parseval's relation,
and from them the exact behaviour of the notebook's doubly-scaled
reconstruction transform. -/

lemma sum_root (M : ℕ) (t : ℤ) :
    ∑ j : Fin M, Complex.exp ((2 * Real.pi * Complex.I) * (((j.val : ℤ) * t : ℤ) : ℂ) / (M : ℂ)) =
      if (M : ℤ) ∣ t then (M : ℂ) else 0 := by
  rcases Nat.eq_zero_or_pos M with hM | hM
  · subst hM
    simp
  · have hM0 : (M : ℂ) ≠ 0 := Nat.cast_ne_zero.mpr (by omega)
    set z : ℂ := Complex.exp ((2 * Real.pi * Complex.I) * (t : ℂ) / (M : ℂ)) with hz
    have hterm : ∀ j : Fin M,
        Complex.exp ((2 * Real.pi * Complex.I) * (((j.val : ℤ) * t : ℤ) : ℂ) / (M : ℂ)) =
          z ^ j.val := by
      intro j
      rw [hz, ← Complex.exp_nat_mul]
      congr 1
      push_cast
      ring
    rw [Finset.sum_congr rfl fun j _ => hterm j]
    rw [Fin.sum_univ_eq_sum_range (fun i => z ^ i) M]
    by_cases hdvd : (M : ℤ) ∣ t
    · obtain ⟨c, hc⟩ := hdvd
      have hz1 : z = 1 := by
        rw [hz, hc]
        have harg : (2 * Real.pi * Complex.I) * (((M : ℤ) * c : ℤ) : ℂ) / (M : ℂ) =
            (c : ℂ) * (2 * Real.pi * Complex.I) := by
          field_simp
          ring
        rw [harg, Complex.exp_int_mul_two_pi_mul_I]
      rw [if_pos ⟨c, hc⟩, hz1]
      simp
    · rw [if_neg hdvd]
      have hzne : z ≠ 1 := by
        intro h1
        rw [hz] at h1
        obtain ⟨n, hn⟩ := Complex.exp_eq_one_iff.mp h1
        have h2pi : (2 * (Real.pi : ℂ) * Complex.I) ≠ 0 := Complex.two_pi_I_ne_zero
        have ht : (t : ℂ) = (n : ℂ) * (M : ℂ) := by
          field_simp at hn
          apply mul_left_cancel₀ h2pi
          linear_combination hn
        have htz : t = n * M := by exact_mod_cast ht
        exact hdvd ⟨n, by rw [htz]; ring⟩
      rw [geom_sum_eq hzne]
      have hzM : z ^ M = 1 := by
        rw [hz, ← Complex.exp_nat_mul]
        have harg : (M : ℂ) * ((2 * Real.pi * Complex.I) * (t : ℂ) / (M : ℂ)) =
            (t : ℂ) * (2 * Real.pi * Complex.I) := by
          field_simp
          ring
        rw [harg]
        exact_mod_cast Complex.exp_int_mul_two_pi_mul_I t
      rw [hzM]
      simp

lemma dvd_eps_sub_iff (ε : ℤ) (hε : ε = 1 ∨ ε = -1) (M : ℕ) (p u : Fin M) :
    (M : ℤ) ∣ (ε * ((p.val : ℤ) - (u.val : ℤ))) ↔ p = u := by
  have hp : (p.val : ℤ) < M := by exact_mod_cast p.isLt
  have hu : (u.val : ℤ) < M := by exact_mod_cast u.isLt
  constructor
  · intro hd
    have hd2 : (M : ℤ) ∣ ((p.val : ℤ) - (u.val : ℤ)) := by
      rcases hε with rfl | rfl
      · simpa using hd
      · rw [neg_one_mul] at hd
        exact (dvd_neg).mp hd
    have habs : |(p.val : ℤ) - (u.val : ℤ)| < M := by
      rw [abs_lt]
      omega
    have h0 := Int.eq_zero_of_abs_lt_dvd hd2 habs
    apply Fin.ext
    omega
  · rintro rfl
    simp

lemma dft1_dft1 (ε : ℤ) (hε : ε = 1 ∨ ε = -1) {M : ℕ} (f : Fin M → ℂ) (u : Fin M) :
    dft1 (-ε) (dft1 ε f) u = (M : ℂ) * f u := by
  unfold dft1
  simp only [Finset.sum_mul]
  rw [Finset.sum_comm]
  have hinner : ∀ p : Fin M,
      (∑ j : Fin M,
        f p * Complex.exp ((ε : ℂ) * (2 * Real.pi * Complex.I) * ((j.val * p.val : ℕ) : ℂ) / (M : ℂ)) *
          Complex.exp (((-ε : ℤ) : ℂ) * (2 * Real.pi * Complex.I) * ((u.val * j.val : ℕ) : ℂ) / (M : ℂ))) =
      f p * (if p = u then (M : ℂ) else 0) := by
    intro p
    have hassoc : ∀ j : Fin M,
        f p * Complex.exp ((ε : ℂ) * (2 * Real.pi * Complex.I) * ((j.val * p.val : ℕ) : ℂ) / (M : ℂ)) *
          Complex.exp (((-ε : ℤ) : ℂ) * (2 * Real.pi * Complex.I) * ((u.val * j.val : ℕ) : ℂ) / (M : ℂ)) =
        f p * Complex.exp ((2 * Real.pi * Complex.I) *
          (((j.val : ℤ) * (ε * ((p.val : ℤ) - (u.val : ℤ))) : ℤ) : ℂ) / (M : ℂ)) := by
      intro j
      rw [mul_assoc, ← Complex.exp_add]
      congr 2
      push_cast
      ring
    rw [Finset.sum_congr rfl fun j _ => hassoc j, ← Finset.mul_sum,
      sum_root M (ε * ((p.val : ℤ) - (u.val : ℤ)))]
    rw [if_congr (dvd_eps_sub_iff ε hε M p u) rfl rfl]
  rw [Finset.sum_congr rfl fun p _ => hinner p]
  simp only [mul_ite, mul_zero]
  rw [Finset.sum_ite_eq' Finset.univ u fun p => f p * (M : ℂ)]
  simp [mul_comm]

lemma conj_dft1 (ε : ℤ) {M : ℕ} (f : Fin M → ℂ) (u : Fin M) :
    (starRingEnd ℂ) (dft1 ε f u) = dft1 (-ε) (fun j => (starRingEnd ℂ) (f j)) u := by
  unfold dft1
  rw [map_sum]
  refine Finset.sum_congr rfl fun j _ => ?_
  rw [map_mul, ← Complex.exp_conj]
  congr 1
  simp only [map_div₀, map_mul, map_intCast, Complex.conj_I, map_natCast, map_ofNat,
    Complex.conj_ofReal]
  push_cast
  ring

lemma dot1 (ε : ℤ) (hε : ε = 1 ∨ ε = -1) {M : ℕ} (f g : Fin M → ℂ) :
    ∑ u, dft1 ε f u * (starRingEnd ℂ) (dft1 ε g u) =
      (M : ℂ) * ∑ p, f p * (starRingEnd ℂ) (g p) := by
  have hconj : ∀ u, (starRingEnd ℂ) (dft1 ε g u) =
      dft1 (-ε) (fun j => (starRingEnd ℂ) (g j)) u := fun u => conj_dft1 ε g u
  rw [Finset.sum_congr rfl fun u _ => by rw [hconj u]]
  unfold dft1
  rw [Finset.sum_congr rfl fun u _ => Finset.sum_mul_sum Finset.univ Finset.univ _ _]
  rw [Finset.sum_comm]
  rw [Finset.sum_congr rfl fun p _ => Finset.sum_comm]
  have hpq : ∀ p q : Fin M,
      (∑ u : Fin M,
        (f p * Complex.exp ((ε : ℂ) * (2 * Real.pi * Complex.I) * ((u.val * p.val : ℕ) : ℂ) / (M : ℂ))) *
          ((starRingEnd ℂ) (g q) *
            Complex.exp (((-ε : ℤ) : ℂ) * (2 * Real.pi * Complex.I) * ((u.val * q.val : ℕ) : ℂ) / (M : ℂ)))) =
      f p * (starRingEnd ℂ) (g q) * (if p = q then (M : ℂ) else 0) := by
    intro p q
    have hterm : ∀ u : Fin M,
        (f p * Complex.exp ((ε : ℂ) * (2 * Real.pi * Complex.I) * ((u.val * p.val : ℕ) : ℂ) / (M : ℂ))) *
          ((starRingEnd ℂ) (g q) *
            Complex.exp (((-ε : ℤ) : ℂ) * (2 * Real.pi * Complex.I) * ((u.val * q.val : ℕ) : ℂ) / (M : ℂ))) =
        f p * (starRingEnd ℂ) (g q) *
          Complex.exp ((2 * Real.pi * Complex.I) *
            (((u.val : ℤ) * (ε * ((p.val : ℤ) - (q.val : ℤ))) : ℤ) : ℂ) / (M : ℂ)) := by
      intro u
      rw [mul_mul_mul_comm, ← Complex.exp_add]
      congr 2
      push_cast
      ring
    rw [Finset.sum_congr rfl fun u _ => hterm u, ← Finset.mul_sum,
      sum_root M (ε * ((p.val : ℤ) - (q.val : ℤ))),
      if_congr (dvd_eps_sub_iff ε hε M p q) rfl rfl]
  rw [Finset.sum_congr rfl fun p _ => Finset.sum_congr rfl fun q _ => hpq p q]
  have hq : ∀ p : Fin M,
      (∑ q : Fin M, f p * (starRingEnd ℂ) (g q) * (if p = q then (M : ℂ) else 0)) =
        f p * (starRingEnd ℂ) (g p) * (M : ℂ) := by
    intro p
    rw [Finset.sum_congr rfl fun q _ => by rw [mul_ite, mul_zero]]
    rw [Finset.sum_ite_eq Finset.univ p fun q => f p * (starRingEnd ℂ) (g q) * (M : ℂ)]
    simp
  rw [Finset.sum_congr rfl fun p _ => hq p, ← Finset.sum_mul, mul_comm]

lemma dft1_const_mul (ε : ℤ) {M : ℕ} (c : ℂ) (f : Fin M → ℂ) (u : Fin M) :
    dft1 ε (fun j => c * f j) u = c * dft1 ε f u := by
  unfold dft1
  rw [Finset.mul_sum]
  exact Finset.sum_congr rfl fun j _ => by ring

lemma mul_exp_exp (c a b : ℂ) :
    c * Complex.exp a * Complex.exp b = c * Complex.exp (a + b) := by
  rw [mul_assoc, ← Complex.exp_add]

lemma rawDFT2_nested (ε : ℤ) {M N : ℕ} (A : Fin M → Fin N → ℂ) (u : Fin M) (v : Fin N) :
    rawDFT2 ε A u v = dft1 ε (fun j => dft1 ε (A j) v) u := by
  unfold rawDFT2 dft1
  refine Finset.sum_congr rfl fun j _ => ?_
  rw [Finset.sum_mul]
  refine Finset.sum_congr rfl fun k _ => ?_
  rw [mul_exp_exp]
  congr 2
  push_cast
  ring

lemma rawDFT2_nested_col (ε : ℤ) {M N : ℕ} (A : Fin M → Fin N → ℂ) (u : Fin M) (v : Fin N) :
    rawDFT2 ε A u v = dft1 ε (fun k => dft1 ε (fun j => A j k) u) v := by
  unfold rawDFT2 dft1
  rw [Finset.sum_comm]
  refine Finset.sum_congr rfl fun k _ => ?_
  rw [Finset.sum_mul]
  refine Finset.sum_congr rfl fun j _ => ?_
  rw [mul_exp_exp]
  congr 2
  push_cast
  ring

lemma rawDFT2_inv (ε : ℤ) (hε : ε = 1 ∨ ε = -1) {M N : ℕ} (A : Fin M → Fin N → ℂ)
    (u : Fin M) (v : Fin N) :
    rawDFT2 (-ε) (rawDFT2 ε A) u v = (M : ℂ) * (N : ℂ) * A u v := by
  rw [rawDFT2_nested (-ε)]
  have hC : ∀ j : Fin M,
      dft1 (-ε) (rawDFT2 ε A j) v = (N : ℂ) * dft1 ε (fun p => A p v) j := by
    intro j
    have h1 : rawDFT2 ε A j = dft1 ε fun k => dft1 ε (fun p => A p k) j := by
      funext k
      exact rawDFT2_nested_col ε A j k
    rw [h1]
    exact dft1_dft1 ε hε (fun k => dft1 ε (fun p => A p k) j) v
  have h2 : (fun j => dft1 (-ε) (rawDFT2 ε A j) v) =
      fun j => (N : ℂ) * dft1 ε (fun p => A p v) j := funext hC
  rw [h2, dft1_const_mul, dft1_dft1 ε hε (fun p => A p v) u]
  ring

lemma dot2 (ε : ℤ) (hε : ε = 1 ∨ ε = -1) {M N : ℕ} (A : Fin M → Fin N → ℂ) :
    ∑ u : Fin M, ∑ v : Fin N, rawDFT2 ε A u v * (starRingEnd ℂ) (rawDFT2 ε A u v) =
      (M : ℂ) * (N : ℂ) * ∑ j, ∑ k, A j k * (starRingEnd ℂ) (A j k) := by
  have hrw : ∀ (u : Fin M) (v : Fin N),
      rawDFT2 ε A u v = dft1 ε (fun j => dft1 ε (A j) v) u := fun u v => rawDFT2_nested ε A u v
  calc ∑ u : Fin M, ∑ v : Fin N, rawDFT2 ε A u v * (starRingEnd ℂ) (rawDFT2 ε A u v)
      = ∑ v : Fin N, ∑ u : Fin M,
          dft1 ε (fun j => dft1 ε (A j) v) u *
            (starRingEnd ℂ) (dft1 ε (fun j => dft1 ε (A j) v) u) := by
        rw [Finset.sum_comm]
        exact Finset.sum_congr rfl fun v _ => Finset.sum_congr rfl fun u _ => by rw [hrw]
    _ = ∑ v : Fin N, (M : ℂ) * ∑ j, dft1 ε (A j) v * (starRingEnd ℂ) (dft1 ε (A j) v) :=
        Finset.sum_congr rfl fun v _ => dot1 ε hε _ _
    _ = (M : ℂ) * ∑ j : Fin M, ∑ v : Fin N,
          dft1 ε (A j) v * (starRingEnd ℂ) (dft1 ε (A j) v) := by
        rw [← Finset.mul_sum]
        congr 1
        exact Finset.sum_comm
    _ = (M : ℂ) * ∑ j, (N : ℂ) * ∑ k, A j k * (starRingEnd ℂ) (A j k) := by
        congr 1
        exact Finset.sum_congr rfl fun j _ => dot1 ε hε _ _
    _ = (M : ℂ) * (N : ℂ) * ∑ j, ∑ k, A j k * (starRingEnd ℂ) (A j k) := by
        rw [← Finset.mul_sum]
        ring

lemma rawDFT2_div (ε : ℤ) {M N : ℕ} (A : Fin M → Fin N → ℂ) (c : ℂ) (u : Fin M) (v : Fin N) :
    rawDFT2 ε (fun j k => A j k / c) u v = rawDFT2 ε A u v / c := by
  unfold rawDFT2
  rw [Finset.sum_div]
  refine Finset.sum_congr rfl fun j _ => ?_
  rw [Finset.sum_div]
  refine Finset.sum_congr rfl fun k _ => ?_
  ring

lemma sqrtMN_sq (M N : ℕ) :
    ((Real.sqrt ((M : ℝ) * (N : ℝ)) : ℝ) : ℂ) * ((Real.sqrt ((M : ℝ) * (N : ℝ)) : ℝ) : ℂ) =
      (M : ℂ) * (N : ℂ) := by
  have h : Real.sqrt ((M : ℝ) * N) * Real.sqrt ((M : ℝ) * N) = (M : ℝ) * N :=
    Real.mul_self_sqrt (by positivity)
  calc ((Real.sqrt ((M : ℝ) * N) : ℝ) : ℂ) * ((Real.sqrt ((M : ℝ) * N) : ℝ) : ℂ)
      = (((Real.sqrt ((M : ℝ) * N) * Real.sqrt ((M : ℝ) * N) : ℝ)) : ℂ) := by push_cast; ring
    _ = (((M : ℝ) * N : ℝ) : ℂ) := by rw [h]
    _ = (M : ℂ) * N := by push_cast; ring

/-- The double scaling in the reconstruction line collapses: the notebook's
forward transform is the unnormalized DFT divided by `Nx·Ny`. -/
lemma forwardTransform_eq {M N : ℕ} (A : Fin M → Fin N → ℂ) (u : Fin M) (v : Fin N) :
    forwardTransform A u v = rawDFT2 (-1) A u v / ((M : ℂ) * N) := by
  show rawDFT2 (-1) (fun j k => A j k / _) u v / _ = _
  rw [rawDFT2_div, div_div, sqrtMN_sq]

lemma inverseTransform_eq {M N : ℕ} (A : Fin M → Fin N → ℂ) (u : Fin M) (v : Fin N) :
    inverseTransform A u v = rawDFT2 1 A u v / ((M : ℂ) * N) := by
  show rawDFT2 1 (fun j k => A j k / _) u v / _ = _
  rw [rawDFT2_div, div_div, sqrtMN_sq]

lemma inverse_forward {M N : ℕ} (A : Fin M → Fin N → ℂ) :
    inverseTransform (forwardTransform A) = fun u v => A u v / ((M : ℂ) * N) := by
  funext u v
  have hM : 0 < M := u.pos
  have hN : 0 < N := v.pos
  have hMN : ((M : ℂ) * N) ≠ 0 :=
    mul_ne_zero (Nat.cast_ne_zero.mpr (by omega)) (Nat.cast_ne_zero.mpr (by omega))
  rw [inverseTransform_eq]
  have hfun : (forwardTransform A) = fun j k => rawDFT2 (-1) A j k / ((M : ℂ) * N) :=
    funext fun j => funext fun k => forwardTransform_eq A j k
  rw [hfun, rawDFT2_div]
  have hinv := rawDFT2_inv (-1) (Or.inr rfl) A u v
  rw [show (-(-1 : ℤ)) = 1 from by norm_num] at hinv
  rw [hinv]
  field_simp

lemma forward_inverse {M N : ℕ} (A : Fin M → Fin N → ℂ) :
    forwardTransform (inverseTransform A) = fun u v => A u v / ((M : ℂ) * N) := by
  funext u v
  have hM : 0 < M := u.pos
  have hN : 0 < N := v.pos
  have hMN : ((M : ℂ) * N) ≠ 0 :=
    mul_ne_zero (Nat.cast_ne_zero.mpr (by omega)) (Nat.cast_ne_zero.mpr (by omega))
  rw [forwardTransform_eq]
  have hfun : (inverseTransform A) = fun j k => rawDFT2 1 A j k / ((M : ℂ) * N) :=
    funext fun j => funext fun k => inverseTransform_eq A j k
  rw [hfun, rawDFT2_div]
  have hinv := rawDFT2_inv 1 (Or.inl rfl) A u v
  rw [hinv]
  field_simp

lemma energy_eq_dot {M N : ℕ} (A : Fin M → Fin N → ℂ) :
    ((energy A : ℝ) : ℂ) = ∑ j, ∑ k, A j k * (starRingEnd ℂ) (A j k) := by
  unfold energy
  push_cast
  refine Finset.sum_congr rfl fun j _ => Finset.sum_congr rfl fun k _ => ?_
  rw [Complex.mul_conj, ← Complex.sq_abs]
  push_cast
  ring

lemma energy_forwardTransform {M N : ℕ} (A : Fin M → Fin N → ℂ) :
    energy (forwardTransform A) = energy A / ((M : ℝ) * N) := by
  rcases Nat.eq_zero_or_pos M with hM | hM
  · subst hM
    simp [energy]
  rcases Nat.eq_zero_or_pos N with hN | hN
  · subst hN
    simp [energy]
  have hMNc : ((M : ℂ) * N) ≠ 0 :=
    mul_ne_zero (Nat.cast_ne_zero.mpr (by omega)) (Nat.cast_ne_zero.mpr (by omega))
  have hMNr : ((M : ℝ) * N) ≠ 0 :=
    mul_ne_zero (Nat.cast_ne_zero.mpr (by omega)) (Nat.cast_ne_zero.mpr (by omega))
  apply Complex.ofReal_injective
  rw [energy_eq_dot]
  have hfun : ∀ (u : Fin M) (v : Fin N),
      forwardTransform A u v = rawDFT2 (-1) A u v / ((M : ℂ) * N) := forwardTransform_eq A
  calc ∑ u, ∑ v, forwardTransform A u v * (starRingEnd ℂ) (forwardTransform A u v)
      = ∑ u, ∑ v, (rawDFT2 (-1) A u v * (starRingEnd ℂ) (rawDFT2 (-1) A u v)) /
          (((M : ℂ) * N) * ((M : ℂ) * N)) := by
        refine Finset.sum_congr rfl fun u _ => Finset.sum_congr rfl fun v _ => ?_
        rw [hfun u v, map_div₀, div_mul_div_comm]
        congr 1
        rw [map_mul, Complex.conj_natCast, Complex.conj_natCast]
    _ = (∑ u, ∑ v, rawDFT2 (-1) A u v * (starRingEnd ℂ) (rawDFT2 (-1) A u v)) /
          (((M : ℂ) * N) * ((M : ℂ) * N)) := by
        rw [Finset.sum_div]
        exact Finset.sum_congr rfl fun u _ => (Finset.sum_div _ _ _).symm
    _ = ((M : ℂ) * N * ∑ j, ∑ k, A j k * (starRingEnd ℂ) (A j k)) /
          (((M : ℂ) * N) * ((M : ℂ) * N)) := by
        rw [dot2 (-1) (Or.inr rfl) A]
    _ = (∑ j, ∑ k, A j k * (starRingEnd ℂ) (A j k)) / ((M : ℂ) * N) := by
        field_simp
        ring
    _ = ((energy A : ℝ) : ℂ) / ((M : ℂ) * N) := by rw [energy_eq_dot]
    _ = (((energy A / ((M : ℝ) * N)) : ℝ) : ℂ) := by
        push_cast
        ring

lemma rawDFT2_delta (ε : ℤ) {M N : ℕ} (c0 : ℂ) (u : Fin M) (v : Fin N) :
    rawDFT2 ε (fun j k => if j.val = 0 ∧ k.val = 0 then c0 else 0) u v = c0 := by
  unfold rawDFT2
  have hM : 0 < M := u.pos
  have hN : 0 < N := v.pos
  set E : Fin M → Fin N → ℂ := fun j k =>
    Complex.exp ((ε : ℂ) * (2 * Real.pi * Complex.I) *
      (((u.val * j.val : ℕ) : ℂ) / (M : ℂ) + ((v.val * k.val : ℕ) : ℂ) / (N : ℂ))) with hE
  have hstep : (∑ j : Fin M, ∑ k : Fin N, (if j.val = 0 ∧ k.val = 0 then c0 else 0) * E j k) =
      ∑ j : Fin M, if j = ⟨0, hM⟩ then (∑ k : Fin N, if k = ⟨0, hN⟩ then c0 * E j k else 0) else 0 := by
    refine Finset.sum_congr rfl fun j _ => ?_
    by_cases hj : j = ⟨0, hM⟩
    · rw [if_pos hj]
      refine Finset.sum_congr rfl fun k _ => ?_
      by_cases hk : k = ⟨0, hN⟩
      · rw [if_pos hk, if_pos ⟨by rw [hj], by rw [hk]⟩]
      · rw [if_neg hk, if_neg fun h => hk (Fin.ext h.2), zero_mul]
    · rw [if_neg hj]
      refine Finset.sum_eq_zero fun k _ => ?_
      rw [if_neg fun h => hj (Fin.ext h.1), zero_mul]
  rw [hstep, Finset.sum_ite_eq' Finset.univ (⟨0, hM⟩ : Fin M), if_pos (Finset.mem_univ _),
    Finset.sum_ite_eq' Finset.univ (⟨0, hN⟩ : Fin N), if_pos (Finset.mem_univ _)]
  rw [hE]
  simp

lemma shift_S3 :
    fftshift2 (fun y x : Fin 4 => if y.val = 2 ∧ x.val = 2 then (10 + 10 * Complex.I) else 0) =
      fun i j : Fin 4 => if i.val = 0 ∧ j.val = 0 then (10 + 10 * Complex.I) else 0 := by
  funext i j
  fin_cases i <;> fin_cases j <;> rfl

/-- C1: the spec claims `inverse(forward(S)) = S` and `forward(inverse(S)) = S`
for the implemented normalization (`fft2`/`ifft2` with `norm='ortho'`, each
input additionally divided by `√(Nx·Ny)`).  What actually holds — proved here —
is that each round trip returns `S` scaled by `1/(Nx·Ny)`: the two extra
`1/√(Nx·Ny)` factors do not cancel, they compound. -/
theorem claim_C1_roundtrip (M N : ℕ) (A : Fin M → Fin N → ℂ) :
    inverseTransform (forwardTransform A) = (fun u v => A u v / ((M : ℂ) * N)) ∧
    forwardTransform (inverseTransform A) = (fun u v => A u v / ((M : ℂ) * N)) :=
  ⟨inverse_forward A, forward_inverse A⟩

/-- C1 counterexample: on the 2×2 spectrum with a single unit coefficient the
round trip returns the spectrum divided by 4, not the spectrum. -/
theorem claim_C1_counterexample :
    ¬ (inverseTransform (forwardTransform fun j k : Fin 2 =>
          if j.val = 0 ∧ k.val = 0 then (1 : ℂ) else 0) =
        fun j k : Fin 2 => if j.val = 0 ∧ k.val = 0 then (1 : ℂ) else 0) := by
  intro h
  have h00 := congrFun (congrFun h ⟨0, by omega⟩) ⟨0, by omega⟩
  rw [inverse_forward] at h00
  norm_num at h00

/-- C2: the spec claims the implemented forward transform preserves total
signal energy (Parseval).  What actually holds — proved here for all shapes,
even and odd alike — is that the energy is divided by `Nx·Ny`: the `ortho`
transform alone is energy-preserving, and the extra `1/√(Nx·Ny)` input scaling
divides the energy by `Nx·Ny`. -/
theorem claim_C2_energy (M N : ℕ) (A : Fin M → Fin N → ℂ) :
    energy (forwardTransform A) = energy A / ((M : ℝ) * N) :=
  energy_forwardTransform A

/-- C2 counterexample: the 2×2 spectrum with a single unit coefficient has
energy 1, but its image under the implemented forward transform has
energy 1/4. -/
theorem claim_C2_counterexample :
    energy (forwardTransform fun j k : Fin 2 => if j.val = 0 ∧ k.val = 0 then (1 : ℂ) else 0) ≠
      energy (fun j k : Fin 2 => if j.val = 0 ∧ k.val = 0 then (1 : ℂ) else 0) := by
  have hE : energy (fun j k : Fin 2 => if j.val = 0 ∧ k.val = 0 then (1 : ℂ) else 0) = 1 := by
    unfold energy
    simp [Fin.sum_univ_two]
  rw [energy_forwardTransform, hE]
  norm_num

/-- C3: for the 4×4 zero spectrum with coefficient (10+10i) at array index
(2,2), the reconstruction (shift, then the implemented transform) yields an
image all 16 of whose pixels have magnitude `|10+10i| / 16` — not the
`|10+10i| / 4` the spec claims (that would be the value under the purely
orthonormal transform, without the extra `1/√(Nx·Ny)` division). -/
theorem claim_C3_magnitudes (u v : Fin 4) :
    Complex.abs (forwardTransform (fftshift2 fun y x : Fin 4 =>
        if y.val = 2 ∧ x.val = 2 then (10 + 10 * Complex.I) else 0) u v) =
      Complex.abs (10 + 10 * Complex.I) / 16 := by
  rw [shift_S3, forwardTransform_eq, rawDFT2_delta, map_div₀]
  norm_num

/-- C3 counterexample: pixel (0,0) of that reconstruction has magnitude
`|10+10i|/16 ≠ |10+10i|/4`. -/
theorem claim_C3_counterexample :
    Complex.abs (forwardTransform (fftshift2 fun y x : Fin 4 =>
        if y.val = 2 ∧ x.val = 2 then (10 + 10 * Complex.I) else 0) 0 0) ≠
      Complex.abs (10 + 10 * Complex.I) / 4 := by
  rw [shift_S3, forwardTransform_eq, rawDFT2_delta, map_div₀]
  have h44 : Complex.abs (((4 : ℕ) : ℂ) * ((4 : ℕ) : ℂ)) = 16 := by norm_num
  rw [h44]
  have hpos : 0 < Complex.abs (10 + 10 * Complex.I) := by
    apply Complex.abs.pos
    intro h
    have := congrArg Complex.re h
    simp at this
  intro h
  rw [div_eq_div_iff (by norm_num) (by norm_num)] at h
  linarith
